import Mathlib

/-!
Verification of the training driver of `kaggla-alaska`.

The development shallowly embeds the two source files:

* `src/losses.py` — the `FocalLoss` module: a numerically stable
  binary-cross-entropy-with-logits computation with a focal modulating
  factor, summed over the second dimension of a 2-D loss tensor and then
  averaged.
* `src/.ipynb_checkpoints/train-checkpoint.py` — the training driver:
  `validate`, `train_epoch`, `valid_epoch` and the top-level `train` loop.

Tensors are modelled as 1-D or 2-D lists of real numbers; arithmetic on
floats is modelled by real arithmetic.  Externally supplied collaborators
(the model, the optimizer, the metric callable) are opaque parameters:
the embedding is parametrised by their outputs.
-/

namespace Alaska

/-- A tensor is either 1-dimensional or 2-dimensional (the only shapes the
loss code distinguishes: `if len(loss.size()) == 2`). -/
inductive Tensor where
  | d1 : List ℝ → Tensor
  | d2 : List (List ℝ) → Tensor

/-- Elementwise map over a tensor. -/
def Tensor.map (f : ℝ → ℝ) : Tensor → Tensor
  | .d1 a => .d1 (a.map f)
  | .d2 a => .d2 (a.map (fun r => r.map f))

/-- Elementwise binary map over two tensors of the same dimensionality
(`logit - logit * target + ...` is elementwise in the source).  On a shape
mismatch the source raises a broadcast error; the embedding returns the
empty tensor. -/
def map2 (f : ℝ → ℝ → ℝ) : Tensor → Tensor → Tensor
  | .d1 a, .d1 b => .d1 (List.zipWith f a b)
  | .d2 a, .d2 b => .d2 (List.zipWith (List.zipWith f) a b)
  | _, _ => .d1 []

/-- Arithmetic mean of a list, `torch.mean`. -/
noncomputable def mean (xs : List ℝ) : ℝ := xs.sum / xs.length

/-- The sigmoid function. -/
noncomputable def sigmoid (x : ℝ) : ℝ := 1 / (1 + Real.exp (-x))

/-- Log-sigmoid, `torch.nn.functional.logsigmoid`. -/
noncomputable def logsigmoid (x : ℝ) : ℝ := Real.log (sigmoid x)

/-- The numerically stable binary-cross-entropy-with-logits part of
`FocalLoss.forward` (losses.py lines 15-17):
`max_val = (-logit).clamp(min=0)` and
`loss = logit - logit*target + max_val + ((-max_val).exp() + (-logit - max_val).exp()).log()`. -/
noncomputable def stableBCE (logit target : ℝ) : ℝ :=
  logit - logit * target + max (-logit) 0 +
    Real.log (Real.exp (-(max (-logit) 0)) + Real.exp (-logit - max (-logit) 0))

/-- One element of the focal loss tensor (losses.py lines 15-20):
the stable BCE term multiplied by
`(invprobs * gamma).exp()` where
`invprobs = logsigmoid(-logit * (target * 2.0 - 1.0))`. -/
noncomputable def focalElem (gamma logit target : ℝ) : ℝ :=
  Real.exp (logsigmoid (-logit * (target * 2 - 1)) * gamma) * stableBCE logit target

/-- The final reduction of `FocalLoss.forward` (losses.py lines 21-23):
a 2-D loss tensor is summed over `dim=1` first, then the mean is taken. -/
noncomputable def Tensor.reduceLoss : Tensor → ℝ
  | .d1 l => mean l
  | .d2 l => mean (l.map List.sum)

/-- The `FocalLoss` module of losses.py; the source constructor default is
`gamma=2`. -/
structure FocalLoss where
  gamma : ℝ

/-- `FocalLoss.forward` (losses.py lines 13-23): the elementwise focal loss
followed by the dimension-dependent reduction. -/
noncomputable def FocalLoss.forward (self : FocalLoss) (logit target : Tensor) : ℝ :=
  (map2 (focalElem self.gamma) logit target).reduceLoss

/-- The standard binary cross-entropy with logits of one element,
written from the spec as the textbook definition:
`-(t * log(sigmoid x) + (1 - t) * log(sigmoid (-x)))`. -/
noncomputable def bceWithLogits (logit target : ℝ) : ℝ :=
  -(target * Real.log (sigmoid logit) + (1 - target) * Real.log (sigmoid (-logit)))

/-- Modelled from the spec: the standard stable BCE-with-logits mean, with
the reduction convention of spec section 4.1 (a 2-D loss tensor is summed
across the second dimension before the batch mean). -/
noncomputable def bceForward : Tensor → Tensor → ℝ
  | .d1 xs, .d1 ts => mean (List.zipWith bceWithLogits xs ts)
  | .d2 xss, .d2 tss =>
      mean ((List.zipWith (List.zipWith bceWithLogits) xss tss).map List.sum)
  | _, _ => 0

/-- Boolean shape equality of two tensors. -/
def sameShapeB : Tensor → Tensor → Bool
  | .d1 a, .d1 b => a.length == b.length
  | .d2 a, .d2 b => a.map List.length == b.map List.length
  | _, _ => false

/-- All entries of the tensor are 0 or 1. -/
def binaryEntries : Tensor → Prop
  | .d1 a => ∀ t ∈ a, t = 0 ∨ t = 1
  | .d2 a => ∀ r ∈ a, ∀ t ∈ r, t = 0 ∨ t = 1

theorem one_add_exp_pos (x : ℝ) : (0 : ℝ) < 1 + Real.exp x :=
  lt_add_of_lt_of_nonneg one_pos (Real.exp_pos x).le

theorem logsigmoid_eq (x : ℝ) : logsigmoid x = -Real.log (1 + Real.exp (-x)) := by
  unfold logsigmoid sigmoid
  rw [one_div, Real.log_inv]

theorem log_one_add_exp (x : ℝ) :
    Real.log (1 + Real.exp x) = x + Real.log (1 + Real.exp (-x)) := by
  have h : 1 + Real.exp x = Real.exp x * (1 + Real.exp (-x)) := by
    rw [mul_add, mul_one, ← Real.exp_add, add_neg_cancel, Real.exp_zero, add_comm]
  rw [h, Real.log_mul (Real.exp_ne_zero x) (one_add_exp_pos (-x)).ne', Real.log_exp]

theorem stableBCE_eq (x t : ℝ) :
    stableBCE x t = x * (1 - t) + Real.log (1 + Real.exp (-x)) := by
  unfold stableBCE
  have h : Real.exp (-(max (-x) 0)) + Real.exp (-x - max (-x) 0)
      = Real.exp (-(max (-x) 0)) * (1 + Real.exp (-x)) := by
    rw [mul_add, mul_one, ← Real.exp_add]
    have harg : -(max (-x) 0) + -x = -x - max (-x) 0 := by ring
    rw [harg]
  rw [h, Real.log_mul (Real.exp_ne_zero _) (one_add_exp_pos (-x)).ne', Real.log_exp]
  ring

theorem bceWithLogits_eq (x t : ℝ) :
    bceWithLogits x t = x * (1 - t) + Real.log (1 + Real.exp (-x)) := by
  unfold bceWithLogits
  rw [show Real.log (sigmoid x) = logsigmoid x from rfl,
    show Real.log (sigmoid (-x)) = logsigmoid (-x) from rfl,
    logsigmoid_eq, logsigmoid_eq, neg_neg, log_one_add_exp]
  ring

theorem focalElem_zero_eq_bce (x t : ℝ) : focalElem 0 x t = bceWithLogits x t := by
  unfold focalElem
  rw [mul_zero, Real.exp_zero, one_mul, stableBCE_eq, bceWithLogits_eq]

theorem focalElem_symm (g x t : ℝ) : focalElem g (-x) (1 - t) = focalElem g x t := by
  unfold focalElem
  have h1 : stableBCE (-x) (1 - t) = stableBCE x t := by
    rw [stableBCE_eq, stableBCE_eq, neg_neg, log_one_add_exp]
    ring
  have h2 : -(-x) * ((1 - t) * 2 - 1) = -x * (t * 2 - 1) := by ring
  rw [h1, h2]

theorem stableBCE_nonneg (x t : ℝ) (ht : t = 0 ∨ t = 1) : 0 ≤ stableBCE x t := by
  rw [stableBCE_eq]
  rcases ht with h | h
  · subst h
    rw [sub_zero, mul_one, ← log_one_add_exp]
    exact Real.log_nonneg (le_add_of_nonneg_right (Real.exp_pos x).le)
  · subst h
    rw [sub_self, mul_zero, zero_add]
    exact Real.log_nonneg (le_add_of_nonneg_right (Real.exp_pos (-x)).le)

theorem focalElem_nonneg (g x t : ℝ) (ht : t = 0 ∨ t = 1) : 0 ≤ focalElem g x t :=
  mul_nonneg (Real.exp_pos _).le (stableBCE_nonneg x t ht)

theorem mean_nonneg (xs : List ℝ) (h : ∀ a ∈ xs, 0 ≤ a) : 0 ≤ mean xs :=
  div_nonneg (List.sum_nonneg h) (Nat.cast_nonneg _)

theorem zipWith_mem {α β γ : Type} (f : α → β → γ) :
    ∀ (xs : List α) (ys : List β), ∀ c ∈ List.zipWith f xs ys,
      ∃ x ∈ xs, ∃ y ∈ ys, c = f x y := by
  intro xs
  induction xs with
  | nil => intro ys c hc; simp at hc
  | cons x xs ih =>
    intro ys c hc
    cases ys with
    | nil => simp at hc
    | cons y ys =>
      simp only [List.zipWith_cons_cons, List.mem_cons] at hc
      rcases hc with h | h
      · exact ⟨x, by simp, y, by simp, h⟩
      · obtain ⟨a, ha, b, hb, hab⟩ := ih ys c h
        exact ⟨a, by simp [ha], b, by simp [hb], hab⟩

/-- C1: with `gamma = 0` the modulating factor is identically 1, so
`FocalLoss.forward` coincides with the standard stable BCE-with-logits
mean on every pair of tensors; in particular on logits `[0, 2, -2]` with
targets `[1, 1, 0]` it equals the closed-form BCE mean. -/
theorem focal_gamma_zero_is_bce_mean :
    (∀ L T : Tensor, (FocalLoss.mk 0).forward L T = bceForward L T) ∧
    (FocalLoss.mk 0).forward (.d1 [0, 2, -2]) (.d1 [1, 1, 0]) =
      (bceWithLogits 0 1 + bceWithLogits 2 1 + bceWithLogits (-2) 0) / 3 := by
  have hf : focalElem 0 = bceWithLogits := by
    funext x t
    exact focalElem_zero_eq_bce x t
  constructor
  · intro L T
    cases L <;> cases T <;>
      simp [FocalLoss.forward, map2, Tensor.reduceLoss, bceForward, hf, mean]
  · simp [FocalLoss.forward, map2, Tensor.reduceLoss, mean, hf]
    ring_nf

/-- C7: simultaneously negating every logit and flipping every target
(`t` becomes `1 - t`) leaves `FocalLoss.forward` unchanged, for every
`gamma` and every same-shaped logit/target pair. -/
theorem focal_sign_flip_invariant (fl : FocalLoss) (L T : Tensor)
    (hsh : sameShapeB L T = true) :
    fl.forward (L.map (fun x => -x)) (T.map (fun t => 1 - t)) = fl.forward L T := by
  clear hsh
  cases L <;> cases T <;>
    simp [FocalLoss.forward, Tensor.map, map2, Tensor.reduceLoss,
      List.zipWith_map, focalElem_symm]

/-- Witness for C7 at `gamma = 2`, logits `[1, -2]`, targets `[1, 0]`. -/
theorem focal_sign_flip_invariant_witness :
    sameShapeB (.d1 [1, -2]) (.d1 [1, 0]) = true ∧
    (FocalLoss.mk 2).forward ((Tensor.d1 [1, -2]).map (fun x => -x))
        ((Tensor.d1 [1, 0]).map (fun t => 1 - t)) =
      (FocalLoss.mk 2).forward (.d1 [1, -2]) (.d1 [1, 0]) :=
  ⟨rfl, focal_sign_flip_invariant (FocalLoss.mk 2) (.d1 [1, -2]) (.d1 [1, 0]) rfl⟩

/-- C8: for every `gamma ≥ 0` and every logit tensor with 0/1 targets,
`FocalLoss.forward` returns a non-negative scalar. -/
theorem focal_nonneg (fl : FocalLoss) (L T : Tensor)
    (hg : 0 ≤ fl.gamma) (hT : binaryEntries T) : 0 ≤ fl.forward L T := by
  clear hg
  cases L with
  | d1 xs =>
    cases T with
    | d1 ts =>
      refine mean_nonneg _ ?_
      intro a ha
      obtain ⟨x, _, t, htmem, rfl⟩ := zipWith_mem _ xs ts a ha
      exact focalElem_nonneg _ x t (hT t htmem)
    | d2 ts => simp [FocalLoss.forward, map2, Tensor.reduceLoss, mean]
  | d2 xss =>
    cases T with
    | d1 ts => simp [FocalLoss.forward, map2, Tensor.reduceLoss, mean]
    | d2 tss =>
      refine mean_nonneg _ ?_
      intro a ha
      simp only [List.mem_map] at ha
      obtain ⟨row, hrow, rfl⟩ := ha
      obtain ⟨xr, _, tr, htr, rfl⟩ := zipWith_mem _ xss tss row hrow
      refine List.sum_nonneg ?_
      intro b hb
      obtain ⟨x, _, t, htmem, rfl⟩ := zipWith_mem _ xr tr b hb
      exact focalElem_nonneg _ x t (hT tr htr t htmem)

/-- Witness for C8 at `gamma = 2`, logits `[1]`, targets `[1]`. -/
theorem focal_nonneg_witness :
    (0 : ℝ) ≤ (FocalLoss.mk 2).gamma ∧ binaryEntries (.d1 [1]) ∧
    0 ≤ (FocalLoss.mk 2).forward (.d1 [1]) (.d1 [1]) :=
  ⟨by norm_num, by simp [binaryEntries],
    focal_nonneg (FocalLoss.mk 2) (.d1 [1]) (.d1 [1]) (by norm_num)
      (by simp [binaryEntries])⟩

/-- C9: on a 2-D loss tensor the returned value is the mean over the batch
dimension of the per-row sums; on a 1-D loss tensor it is the plain mean. -/
theorem focal_reduction_rule (fl : FocalLoss) :
    (∀ xss tss, fl.forward (.d2 xss) (.d2 tss) =
      (List.zipWith (fun r s => (List.zipWith (focalElem fl.gamma) r s).sum) xss tss).sum /
        (List.zipWith (fun r s => (List.zipWith (focalElem fl.gamma) r s).sum) xss tss).length) ∧
    (∀ xs ts, fl.forward (.d1 xs) (.d1 ts) =
      (List.zipWith (focalElem fl.gamma) xs ts).sum /
        (List.zipWith (focalElem fl.gamma) xs ts).length) := by
  constructor
  · intro xss tss
    simp [FocalLoss.forward, map2, Tensor.reduceLoss, mean, List.map_zipWith]
  · intro xs ts
    simp [FocalLoss.forward, map2, Tensor.reduceLoss, mean]

/-! ## The validation pass (train-checkpoint.py lines 23-95)

A validation batch is a pair `(model output rows, label rows)`: the model
is an opaque external collaborator, so the embedding is parametrised by
its per-batch outputs.  `pred[:, 0]` and `t0[:, 0]` are modelled by
`List.headI` on each row. -/

/-- One row of `softmax(pred0, dim=1)`. -/
noncomputable def softmaxRow (r : List ℝ) : List ℝ :=
  r.map (fun x => Real.exp x / (r.map Real.exp).sum)

/-- The per-batch derived scores (train-checkpoint.py lines 89-92):
`1 - softmax(pred0, dim=1)[:, 0]` in categorical-cross-entropy mode,
`1 - pred0[:, 0]` otherwise. -/
noncomputable def deriveScores (ce : Bool) (preds : List (List ℝ)) : List ℝ :=
  if ce then preds.map (fun r => 1 - (softmaxRow r).headI)
  else preds.map (fun r => 1 - r.headI)

/-- The per-batch derived ground truth (train-checkpoint.py lines 83 and 94):
`1 - t0[:, 0]`. -/
noncomputable def deriveTrues (labels : List (List ℝ)) : List ℝ :=
  labels.map (fun r => 1 - r.headI)

/-- The Metric Adapter (train-checkpoint.py lines 23-24):
`validate(predicts, labels, single_metric)` returns
`single_metric(labels, predicts)`. -/
def validate {α : Type} (predicts labels : List ℝ)
    (single_metric : List ℝ → List ℝ → α) : α :=
  single_metric labels predicts

/-- The concatenation of the derived scores of all batches (`preds0`). -/
noncomputable def allScores (ce : Bool)
    (batches : List (List (List ℝ) × List (List ℝ))) : List ℝ :=
  (batches.map (fun b => deriveScores ce b.1)).flatten

/-- The concatenation of the derived ground truth of all batches (`true0`). -/
noncomputable def allTrues
    (batches : List (List (List ℝ) × List (List ℝ))) : List ℝ :=
  (batches.map (fun b => deriveTrues b.2)).flatten

/-- `valid_epoch` (train-checkpoint.py lines 68-95): accumulate the derived
scores and ground truth over the loader with `np.append`, then call
`validate`. -/
noncomputable def valid_epoch {α : Type} (ce : Bool)
    (single_metric : List ℝ → List ℝ → α)
    (batches : List (List (List ℝ) × List (List ℝ))) : α :=
  let acc := batches.foldl
    (fun acc b => (acc.1 ++ deriveScores ce b.1, acc.2 ++ deriveTrues b.2))
    ([], [])
  validate acc.1 acc.2 single_metric

/-- Modelled from the spec (section 4.3): the scoring callable applied to
the concatenated scores as its first argument and the concatenated labels
as its second argument. -/
noncomputable def valid_epoch_spec {α : Type} (ce : Bool)
    (single_metric : List ℝ → List ℝ → α)
    (batches : List (List (List ℝ) × List (List ℝ))) : α :=
  single_metric (allScores ce batches) (allTrues batches)

theorem valid_fold (ce : Bool) :
    ∀ (batches : List (List (List ℝ) × List (List ℝ))) (ps ts : List ℝ),
      batches.foldl
        (fun acc b => (acc.1 ++ deriveScores ce b.1, acc.2 ++ deriveTrues b.2))
        (ps, ts)
      = (ps ++ allScores ce batches, ts ++ allTrues batches) := by
  intro batches
  induction batches with
  | nil => intro ps ts; simp [allScores, allTrues]
  | cons b bs ih =>
    intro ps ts
    rw [List.foldl_cons, ih]
    simp [allScores, allTrues, List.append_assoc]

/-- C2 counterexample: the scoring callable is not invoked as
(all scores, all labels).  With the callable returning its first argument,
one batch with prediction row `[0]` and label row `[1, 0]`, the code
returns the labels `[0]`, not the scores `[1]`. -/
theorem valid_epoch_metric_arg_order_cex :
    valid_epoch false (fun a _ => a) [([[0]], [[1, 0]])] ≠
      valid_epoch_spec false (fun a _ => a) [([[0]], [[1, 0]])] := by
  simp [valid_epoch, valid_epoch_spec, validate, allScores, allTrues,
    deriveScores, deriveTrues]

theorem valid_epoch_eq {α : Type} (ce : Bool)
    (single_metric : List ℝ → List ℝ → α)
    (batches : List (List (List ℝ) × List (List ℝ))) :
    valid_epoch ce single_metric batches =
      single_metric (allTrues batches) (allScores ce batches) := by
  unfold valid_epoch validate
  rw [valid_fold]
  simp

/-- C2 amended: `valid_epoch` returns the scoring callable applied to the
concatenated ground-truth labels as its FIRST argument and the
concatenated per-example scores as its SECOND argument. -/
theorem valid_epoch_metric_called_labels_first {α : Type} (ce : Bool)
    (single_metric : List ℝ → List ℝ → α)
    (batches : List (List (List ℝ) × List (List ℝ))) :
    valid_epoch ce single_metric batches =
      single_metric (allTrues batches) (allScores ce batches) :=
  valid_epoch_eq ce single_metric batches

/-- C6: `valid_epoch` applies the invert-class-0-channel convention to both
sides: the accumulated ground truth is `1 - label[:, 0]` over all batches
and the accumulated scores are `1 - pred[:, 0]` of the (softmaxed, in
categorical-cross-entropy mode) predictions; in particular a one-hot label
row `[1, 0]` derives ground truth `0` and `[0, 1]` derives `1`. -/
theorem valid_epoch_inversion_convention :
    (∀ (ce : Bool) (batches : List (List (List ℝ) × List (List ℝ))),
      valid_epoch ce (fun labels preds => (labels, preds)) batches =
        ((batches.map (fun b => b.2.map (fun r => 1 - r.headI))).flatten,
         (batches.map (fun b =>
           b.1.map (fun r => 1 - ((if ce then softmaxRow r else r).headI)))).flatten)) ∧
    valid_epoch false (fun labels _ => labels) [([[0, 0]], [[1, 0], [0, 1]])] =
      [0, 1] := by
  constructor
  · intro ce batches
    rw [valid_epoch_eq]
    cases ce <;> simp [allTrues, allScores, deriveTrues, deriveScores]
  · rw [valid_epoch_eq]
    norm_num [allTrues, deriveTrues]

/-! ## The training pass (train-checkpoint.py lines 27-65)

One training batch is parametrised by the opaque model outputs
(`pred0`, `pred_qual`) and the batch labels (`t0`, `t1`). -/

/-- The label argument handed to the primary criterion: a class-index
tensor (`t0.argmax(1)`) in the categorical-cross-entropy branch, the raw
one-hot tensor otherwise. -/
inductive LabelArg where
  | idx : List ℕ → LabelArg
  | raw : List (List ℝ) → LabelArg

/-- The primary loss object: the declared kind (`__class__.__name__`)
and the loss computation itself, an opaque external collaborator. -/
structure Criterion where
  name : String
  fn : List (List ℝ) → LabelArg → ℝ

/-- Scan for the index of the first maximum: `best` is the best index so
far, `bv` its value, `i` the index of the list head. -/
noncomputable def argmaxAux : List ℝ → ℕ → ℕ → ℝ → ℕ
  | [], _, best, _ => best
  | x :: xs, i, best, bv =>
      if bv < x then argmaxAux xs (i + 1) i x else argmaxAux xs (i + 1) best bv

/-- `torch.argmax` of one row: the index of the first maximal entry. -/
noncomputable def argmaxRow : List ℝ → ℕ
  | [] => 0
  | x :: xs => argmaxAux xs 1 0 x

/-- `t0.argmax(1)` (train-checkpoint.py line 53): rowwise argmax. -/
noncomputable def argmax1 (t0 : List (List ℝ)) : List ℕ := t0.map argmaxRow

/-- `qal_loss = FocalLoss()` (train-checkpoint.py line 20); the source
constructor default is `gamma=2`. -/
noncomputable def qal_loss : FocalLoss := FocalLoss.mk 2

/-- One training batch: the model outputs and the labels. -/
structure BatchData where
  pred0 : List (List ℝ)
  pred_qual : Tensor
  t0 : List (List ℝ)
  t1 : Tensor

/-- The loss back-propagated for one batch
(train-checkpoint.py lines 52-58). -/
noncomputable def batchLoss (criterion : Criterion) (use_qual : Bool)
    (b : BatchData) : ℝ :=
  let loss := if criterion.name = "CrossEntropyLoss"
    then criterion.fn b.pred0 (.idx (argmax1 b.t0))
    else criterion.fn b.pred0 (.raw b.t0)
  if use_qual then loss + 0.2 * qal_loss.forward b.pred_qual b.t1 else loss

/-- `train_epoch` (train-checkpoint.py lines 27-65), observed through the
sequence of losses it back-propagates, one per batch. -/
noncomputable def train_epoch (criterion : Criterion) (use_qual : Bool)
    (batches : List BatchData) : List ℝ :=
  batches.map (batchLoss criterion use_qual)

/-- C3: the loss back-propagated for every batch is the criterion applied
to `(pred0, argmax over dim 1 of t0)` when the declared kind is
`CrossEntropyLoss` and to `(pred0, t0)` otherwise, plus 0.2 times the
auxiliary focal loss of the quality prediction against the quality label
when `use_qual` is true. -/
theorem train_epoch_loss_composition (crit : Criterion) (uq : Bool)
    (batches : List BatchData) :
    train_epoch crit uq batches = batches.map (fun b =>
      (if crit.name = "CrossEntropyLoss"
        then crit.fn b.pred0 (LabelArg.idx (b.t0.map argmaxRow))
        else crit.fn b.pred0 (LabelArg.raw b.t0))
      + (if uq then 0.2 * qal_loss.forward b.pred_qual b.t1 else 0)) := by
  have hb : ∀ b : BatchData, batchLoss crit uq b =
      (if crit.name = "CrossEntropyLoss"
        then crit.fn b.pred0 (LabelArg.idx (b.t0.map argmaxRow))
        else crit.fn b.pred0 (LabelArg.raw b.t0))
      + (if uq then 0.2 * qal_loss.forward b.pred_qual b.t1 else 0) := by
    intro b
    unfold batchLoss argmax1
    cases uq <;> simp
  unfold train_epoch
  exact List.map_congr_left (fun b _ => hb b)

/-! ## The top-level loop (train-checkpoint.py lines 98-133)

The loop is observed through the trace of its externally visible actions
per epoch: stepping the scheduler, writing the numbered checkpoint,
writing `best.pth`, appending the log line.  The validation metric and
the learning rate of each epoch come from opaque collaborators, so the
embedding is parametrised by them as functions of the epoch index. -/

/-- One externally visible action of the `train` loop. -/
inductive Event where
  | schedStepNoArg : Event
  | schedStepMetric : ℝ → Event
  | saveEpoch : ℕ → Event
  | saveBest : Event
  | logLine : ℕ → ℝ → ℝ → Event

/-- Recognises the numbered-checkpoint write `<models_path>/<e>.pth`. -/
def isSaveEpochEv : Event → Bool
  | .saveEpoch _ => true
  | _ => false

/-- Recognises the appended log line. -/
def isLogEv : Event → Bool
  | .logLine _ _ _ => true
  | _ => false

/-- Recognises a scheduler step. -/
def isSchedEv : Event → Bool
  | .schedStepNoArg => true
  | .schedStepMetric _ => true
  | _ => false

/-- The `max_score` update (train-checkpoint.py lines 129-130). -/
noncomputable def nextScore (metric ms : ℝ) : ℝ :=
  if metric > ms then metric else ms

/-- The actions of one epoch (train-checkpoint.py lines 124-133):
scheduler step (no argument for `CosineAnnealingLR`, the metric
otherwise), unconditional numbered checkpoint, `best.pth` exactly when
`metric > max_score`, then the log line. -/
noncomputable def epochEvents (cosine : Bool) (e : ℕ) (metric lr ms : ℝ) :
    List Event :=
  (if cosine then [Event.schedStepNoArg] else [Event.schedStepMetric metric])
    ++ [Event.saveEpoch e]
    ++ (if metric > ms then [Event.saveBest] else [])
    ++ [Event.logLine e metric lr]

/-- The epoch loop, carrying the epoch index and the running `max_score`. -/
noncomputable def trainAux (cosine : Bool) (metric lr : ℕ → ℝ) :
    ℕ → ℕ → ℝ → List (List Event)
  | 0, _, _ => []
  | n + 1, e, ms =>
      epochEvents cosine e (metric e) (lr e) ms ::
        trainAux cosine metric lr n (e + 1) (nextScore (metric e) ms)

/-- `train` (train-checkpoint.py lines 98-133): `n_epochs` epochs starting
from `max_score = 0`, returning the per-epoch event lists. -/
noncomputable def train (cosine : Bool) (metric lr : ℕ → ℝ) (n_epochs : ℕ) :
    List (List Event) :=
  trainAux cosine metric lr n_epochs 0 0

/-- The value of `max_score` at the start of epoch `e`. -/
noncomputable def maxScoreAt (metric : ℕ → ℝ) : ℕ → ℝ
  | 0 => 0
  | e + 1 => nextScore (metric e) (maxScoreAt metric e)

theorem nextScore_eq_max (a b : ℝ) : nextScore a b = max b a := by
  unfold nextScore
  rcases le_or_lt a b with h | h
  · rw [if_neg (not_lt.mpr h), max_eq_left h]
  · rw [if_pos h, max_eq_right h.le]

theorem trainAux_from (c : Bool) (m l : ℕ → ℝ) :
    ∀ (n s : ℕ), trainAux c m l n s (maxScoreAt m s) =
      (List.range n).map (fun i =>
        epochEvents c (s + i) (m (s + i)) (l (s + i)) (maxScoreAt m (s + i))) := by
  intro n
  induction n with
  | zero => intro s; simp [trainAux]
  | succ n ih =>
    intro s
    rw [trainAux,
      show nextScore (m s) (maxScoreAt m s) = maxScoreAt m (s + 1) from rfl,
      ih (s + 1), List.range_succ_eq_map, List.map_cons, List.map_map]
    refine congrArg₂ _ (by simp) ?_
    refine List.map_congr_left ?_
    intro i _
    have hidx : s + 1 + i = s + (i + 1) := by omega
    simp [Function.comp, Nat.succ_eq_add_one, hidx]

theorem train_eq_map (c : Bool) (m l : ℕ → ℝ) (E : ℕ) :
    train c m l E = (List.range E).map
      (fun e => epochEvents c e (m e) (l e) (maxScoreAt m e)) := by
  rw [train, show (0 : ℝ) = maxScoreAt m 0 from rfl, trainAux_from c m l E 0]
  refine List.map_congr_left ?_
  intro e _
  rw [Nat.zero_add]

theorem train_getD (c : Bool) (m l : ℕ → ℝ) {E e : ℕ} (h : e < E) :
    (train c m l E).getD e [] =
      epochEvents c e (m e) (l e) (maxScoreAt m e) := by
  rw [train_eq_map, List.getD_eq_getElem _ _ (by simpa using h)]
  simp

theorem countP_saveEpoch_epochEvents (c : Bool) (e : ℕ) (metric lr ms : ℝ) :
    (epochEvents c e metric lr ms).countP isSaveEpochEv = 1 := by
  unfold epochEvents
  by_cases h : metric > ms <;> cases c <;>
    simp [h, isSaveEpochEv, List.countP_append, List.countP_cons]

theorem countP_log_epochEvents (c : Bool) (e : ℕ) (metric lr ms : ℝ) :
    (epochEvents c e metric lr ms).countP isLogEv = 1 := by
  unfold epochEvents
  by_cases h : metric > ms <;> cases c <;>
    simp [h, isLogEv, List.countP_append, List.countP_cons]

theorem saveBest_mem_iff (c : Bool) (e : ℕ) (metric lr ms : ℝ) :
    Event.saveBest ∈ epochEvents c e metric lr ms ↔ metric > ms := by
  unfold epochEvents
  by_cases h : metric > ms <;> cases c <;> simp [h]

/-- C4: a run over `E` epochs writes exactly `E` numbered checkpoints
(one per epoch: epoch `e` writes `<models_path>/<e>.pth`), writes
`best.pth` in epoch `e` exactly when its metric strictly exceeds the
running `max_score`, and appends exactly `E` log lines. -/
theorem train_checkpoint_log_counts (c : Bool) (m l : ℕ → ℝ) (E : ℕ) :
    (train c m l E).flatten.countP isSaveEpochEv = E ∧
    (∀ e, e < E → Event.saveEpoch e ∈ (train c m l E).getD e []) ∧
    (∀ e, e < E →
      (Event.saveBest ∈ (train c m l E).getD e [] ↔ m e > maxScoreAt m e)) ∧
    (train c m l E).flatten.countP isLogEv = E := by
  refine ⟨?_, ?_, ?_, ?_⟩
  · rw [train_eq_map, List.countP_flatten, List.map_map]
    have h1 : ∀ e ∈ List.range E,
        (List.countP isSaveEpochEv ∘ fun e =>
          epochEvents c e (m e) (l e) (maxScoreAt m e)) e = 1 :=
      fun e _ => countP_saveEpoch_epochEvents c e (m e) (l e) (maxScoreAt m e)
    rw [List.map_congr_left h1]
    simp
  · intro e h
    rw [train_getD c m l h]
    unfold epochEvents
    by_cases hm : m e > maxScoreAt m e <;> cases c <;> simp [hm]
  · intro e h
    rw [train_getD c m l h]
    exact saveBest_mem_iff c e (m e) (l e) (maxScoreAt m e)
  · rw [train_eq_map, List.countP_flatten, List.map_map]
    have h1 : ∀ e ∈ List.range E,
        (List.countP isLogEv ∘ fun e =>
          epochEvents c e (m e) (l e) (maxScoreAt m e)) e = 1 :=
      fun e _ => countP_log_epochEvents c e (m e) (l e) (maxScoreAt m e)
    rw [List.map_congr_left h1]
    simp

/-- Witness for C4 at one epoch with metric 1 and a non-cosine scheduler. -/
theorem train_checkpoint_log_counts_witness :
    (0 < 1) ∧
    Event.saveEpoch 0 ∈ (train false (fun _ => (1 : ℝ)) (fun _ => 0) 1).getD 0 [] ∧
    (Event.saveBest ∈ (train false (fun _ => (1 : ℝ)) (fun _ => 0) 1).getD 0 [] ↔
      (1 : ℝ) > maxScoreAt (fun _ => (1 : ℝ)) 0) :=
  ⟨Nat.one_pos,
    (train_checkpoint_log_counts false (fun _ => 1) (fun _ => 0) 1).2.1 0 Nat.one_pos,
    (train_checkpoint_log_counts false (fun _ => 1) (fun _ => 0) 1).2.2.1 0 Nat.one_pos⟩

/-- C5: in every epoch the scheduler receives exactly one step: with no
argument when the scheduler is the cosine-annealing kind, with the
epoch's validation metric as sole argument otherwise. -/
theorem train_scheduler_dispatch (c : Bool) (m l : ℕ → ℝ) (E e : ℕ)
    (h : e < E) :
    ((train c m l E).getD e []).filter isSchedEv =
      [if c then Event.schedStepNoArg else Event.schedStepMetric (m e)] := by
  rw [train_getD c m l h]
  unfold epochEvents
  by_cases hm : m e > maxScoreAt m e <;> cases c <;>
    simp [hm, isSchedEv, List.filter_append]

/-- Witness for C5 at one epoch with a cosine scheduler. -/
theorem train_scheduler_dispatch_witness :
    (0 < 1) ∧
    ((train true (fun _ => (0 : ℝ)) (fun _ => 0) 1).getD 0 []).filter isSchedEv =
      [Event.schedStepNoArg] :=
  ⟨Nat.one_pos, train_scheduler_dispatch true (fun _ => 0) (fun _ => 0) 1 0 Nat.one_pos⟩

theorem maxScoreAt_nonneg (m : ℕ → ℝ) : ∀ e, 0 ≤ maxScoreAt m e := by
  intro e
  induction e with
  | zero => exact le_refl 0
  | succ e ih =>
    rw [maxScoreAt, nextScore_eq_max]
    exact le_trans ih (le_max_left _ _)

/-- C10: `max_score` is non-decreasing, after each epoch equals the
maximum of 0 and all metrics observed so far, and in a run where every
metric is at most 0 `best.pth` is never written. -/
theorem max_score_running_max (m : ℕ → ℝ) :
    (∀ e, maxScoreAt m e ≤ maxScoreAt m (e + 1)) ∧
    (∀ e, maxScoreAt m e = ((List.range e).map m).foldl max 0) ∧
    (∀ (c : Bool) (l : ℕ → ℝ) (E : ℕ), (∀ e, m e ≤ 0) →
      Event.saveBest ∉ (train c m l E).flatten) := by
  refine ⟨?_, ?_, ?_⟩
  · intro e
    rw [maxScoreAt, nextScore_eq_max]
    exact le_max_left _ _
  · intro e
    induction e with
    | zero => simp [maxScoreAt]
    | succ e ih =>
      rw [maxScoreAt, nextScore_eq_max, List.range_succ, List.map_append,
        List.foldl_append, ← ih]
      simp
  · intro c l E hm hmem
    rw [train_eq_map] at hmem
    rw [List.mem_flatten] at hmem
    obtain ⟨evs, hevs, hin⟩ := hmem
    rw [List.mem_map] at hevs
    obtain ⟨e, _, rfl⟩ := hevs
    rw [saveBest_mem_iff] at hin
    exact absurd hin (not_lt.mpr (le_trans (hm e) (maxScoreAt_nonneg m e)))

/-- Witness for C10 with all metrics equal to 0 over two epochs. -/
theorem max_score_running_max_witness :
    (∀ e : ℕ, (fun _ => (0 : ℝ)) e ≤ 0) ∧
    Event.saveBest ∉ (train false (fun _ => (0 : ℝ)) (fun _ => 0) 2).flatten :=
  ⟨fun _ => le_refl 0,
    (max_score_running_max (fun _ => 0)).2.2 false (fun _ => 0) 2
      (fun _ => le_refl 0)⟩

end Alaska
